import Mathlib

/-!
# Verification of the EDM patched stochastic sampler (`edmss/stochastic.py`)

Shallow embedding of the three components of the module:

* `imageBatching` — the Tiler (`image_batching`): reflection-pads the image and
  cuts it into an overlapping grid of patches laid out along the leading batch
  axis.
* `imageFuse` — the Fuser (`image_fuse`): accumulates boundary-cropped patches
  into a full image and divides by the per-pixel coverage count.
* `edmSampler` — the Heun sampling loop (`edm_sampler`) with its Karras noise
  schedule.

Tensors are modelled as total functions `ℕ → ℕ → ℕ → ℕ → α` (batch, channel,
row, column) over a linearly ordered field, with shapes carried separately in
the statements; reads outside the stored extent are modelled as `0`.
Python's unbounded integer arithmetic on geometry quantities is rendered over
`ℕ` together with lemmas (`geom_facts`) showing the truncated subtractions
agree with the exact values under the geometry hypotheses that the claims
carry.  Fallible torch operations (reflection padding with a pad that is not
smaller than the input extent raises) are rendered with `Option`.
-/

namespace Edmss

/-- Tensor values indexed by (batch, channel, row, column); entries outside the
shape under discussion are irrelevant junk, read as whatever the function
returns there. -/
abbrev Tensor4 (α : Type) := ℕ → ℕ → ℕ → ℕ → α

/-- Stride between consecutive tiles along one axis:
`patch_shape - overlap_pix - boundary_pix`. -/
def strideOf (p v w : ℕ) : ℕ := p - v - w

/-- Number of tiles along one axis:
`math.ceil(img_shape / (patch_shape - overlap_pix - boundary_pix))`,
rendered as `(n + s - 1) / s` which equals the ceiling for `0 < s`. -/
def tileCount (n s : ℕ) : ℕ := (n + s - 1) / s

/-- Padded extent along one axis:
`(patch-overlap-boundary) * (patch_num-1) + patch_shape + boundary_pix`. -/
def paddedShape (n p v w : ℕ) : ℕ :=
  strideOf p v w * (tileCount n (strideOf p v w) - 1) + p + w

/-- Trailing (right/bottom) reflection pad:
`padded_shape - img_shape - boundary_pix`. -/
def padRight (n p v w : ℕ) : ℕ := paddedShape n p v w - n - w

/-- Valid pixels contributed by the last tile along an axis:
`patch_shape - pad_right` (`residual_x` / `residual_y` in the source). -/
def residualOf (n p v w : ℕ) : ℕ := p - padRight n p v w

/-- Ceiling-division characterisation: `tileCount n s` is positive, its
predecessor's worth of strides does not reach `n`, and `tileCount n s` strides
cover `n`. -/
theorem tileCount_spec (s n : ℕ) (hs : 0 < s) (hn : 0 < n) :
    0 < tileCount n s ∧ s * (tileCount n s - 1) < n ∧ n ≤ s * tileCount n s := by
  have hdm := Nat.div_add_mod (n + s - 1) s
  have hmod : (n + s - 1) % s < s := Nat.mod_lt _ hs
  unfold tileCount
  set q := (n + s - 1) / s with hq
  have hq1 : 0 < q := Nat.div_pos (by omega) hs
  have h2 : s * (q - 1) + s = s * q := by
    have hq2 : q - 1 + 1 = q := Nat.succ_pred_eq_of_pos hq1
    calc s * (q - 1) + s = s * (q - 1 + 1) := by ring
    _ = s * q := by rw [hq2]
  refine ⟨hq1, ?_, ?_⟩
  · revert hdm h2
    generalize s * (q - 1) = A
    generalize s * q = B
    intro hdm h2
    omega
  · revert hdm h2
    generalize s * (q - 1) = A
    generalize s * q = B
    intro hdm h2
    omega

/-- Exactness of the `ℕ`-subtractions in the geometry quantities: under
`overlap + boundary < patch` and a nonempty image, `padRight` and `residualOf`
satisfy the identities the Python integer arithmetic satisfies. -/
theorem geom_facts (n p v w : ℕ) (hvw : v + w < p) (hn : 0 < n) :
    n + w ≤ paddedShape n p v w ∧
    padRight n p v w + (n + w) = paddedShape n p v w ∧
    padRight n p v w < p ∧
    residualOf n p v w + padRight n p v w = p ∧
    residualOf n p v w + strideOf p v w * (tileCount n (strideOf p v w) - 1) = n ∧
    0 < residualOf n p v w ∧
    residualOf n p v w ≤ strideOf p v w := by
  have hs : 0 < strideOf p v w := by unfold strideOf; omega
  have hsp : strideOf p v w ≤ p := by unfold strideOf; omega
  obtain ⟨hq1, hlt, hle⟩ := tileCount_spec (strideOf p v w) n hs hn
  have h2 : strideOf p v w * (tileCount n (strideOf p v w) - 1) + strideOf p v w
      = strideOf p v w * tileCount n (strideOf p v w) := by
    have hq2 : tileCount n (strideOf p v w) - 1 + 1 = tileCount n (strideOf p v w) :=
      Nat.succ_pred_eq_of_pos hq1
    calc strideOf p v w * (tileCount n (strideOf p v w) - 1) + strideOf p v w
        = strideOf p v w * (tileCount n (strideOf p v w) - 1 + 1) := by ring
    _ = strideOf p v w * tileCount n (strideOf p v w) := by rw [hq2]
  unfold residualOf padRight paddedShape
  revert hlt hle h2
  generalize strideOf p v w * (tileCount n (strideOf p v w) - 1) = A
  generalize strideOf p v w * tileCount n (strideOf p v w) = B
  intro hlt hle h2
  omega

/-- Index map of `torch.nn.ReflectionPad2d` along one axis: padded index `i`
over a source axis of extent `n` with leading pad `pad` is read from source
index `reflectIdx n pad i` (reflection about the edge pixel, edge not
repeated).  Faithful to torch for `pad < n` and trailing pad `< n`, which is
exactly the regime in which torch does not raise (see `imageBatching`). -/
def reflectIdx (n pad i : ℕ) : ℕ :=
  if i < pad then pad - i
  else if i - pad < n then i - pad
  else 2 * (n - 1) - (i - pad)

/-- Interior of the padding: indices that land in the copied central region
read the source unchanged. -/
theorem reflectIdx_interior (n pad i : ℕ) (h1 : pad ≤ i) (h2 : i < pad + n) :
    reflectIdx n pad i = i - pad := by
  unfold reflectIdx
  rw [if_neg (by omega), if_pos (by omega)]

section Tiler

variable {α : Type} [LinearOrderedField α]

/-- Value of the reflection-padded image
`torch.nn.ReflectionPad2d((boundary_pix, pad_x_right, boundary_pix, pad_y_right))(input)`:
both leading pads equal `boundary_pix`; the trailing pads only influence the
padded extent, not the value at a given padded index. -/
def reflectPad (input : Tensor4 α) (nY nX w : ℕ) : Tensor4 α :=
  fun b c y x => input b c (reflectIdx nY w y) (reflectIdx nX w x)

/-- Channel-axis concatenation `torch.cat((f, g), dim=1)` where `f` has `cf`
channels. -/
def chanConcat (f g : Tensor4 α) (cf : ℕ) : Tensor4 α :=
  fun b c y x => if c < cf then f b c y x else g b (c - cf) y x

/-- Patch-batch content produced by the tiling double loop of
`image_batching`: output slot `s` holds, for batch-grid position
`(x_index, y_index) = (s / B / patch_num_y, s / B % patch_num_y)` and original
batch index `s % B`, the window of the padded image starting at
`(y_index * stride, x_index * stride)`; with auxiliary conditioning
`input_interp` (here `interp`, with the main input carrying `cin` channels)
the tile's trailing channels are read from it.  Slots and patch coordinates
outside the allocated `patch_num * batch_size` × `patch_shape` extent read the
`torch.zeros` initialisation. -/
def imageBatchingRaw (input : Tensor4 α) (nY nX pY pX B v w : ℕ)
    (interp : Option (Tensor4 α)) (cin : ℕ) : Tensor4 α :=
  fun s c py px =>
    let pnX := tileCount nX (strideOf pX v w)
    let pnY := tileCount nY (strideOf pY v w)
    let t := s / B
    let xi := t / pnY
    let yi := t % pnY
    if t < pnX * pnY ∧ py < pY ∧ px < pX then
      match interp with
      | none =>
          reflectPad input nY nX w (s % B) c
            (yi * strideOf pY v w + py) (xi * strideOf pX v w + px)
      | some g =>
          if c < cin then
            reflectPad input nY nX w (s % B) c
              (yi * strideOf pY v w + py) (xi * strideOf pX v w + px)
          else g (s % B) (c - cin) py px
    else 0

/-- Condition under which `torch.nn.ReflectionPad2d` does not raise: every pad
is strictly smaller than the corresponding input extent.  The pads of
`image_batching` are `(boundary_pix, pad_x_right, boundary_pix, pad_y_right)`
against an input of extent `img_shape_y × img_shape_x`. -/
def batchingValid (nY nX pY pX v w : ℕ) : Prop :=
  w < nX ∧ padRight nX pX v w < nX ∧ w < nY ∧ padRight nY pY v w < nY

instance batchingValid.dec (nY nX pY pX v w : ℕ) :
    Decidable (batchingValid nY nX pY pX v w) := by
  unfold batchingValid; exact inferInstance

/-- Tiler `image_batching`: `none` models the
`RuntimeError: Padding size should be less than the corresponding input
dimension` raised by `torch.nn.ReflectionPad2d` when some pad reaches the
image extent; otherwise the patch batch of `imageBatchingRaw`. -/
def imageBatching (input : Tensor4 α) (nY nX pY pX B v w : ℕ)
    (interp : Option (Tensor4 α)) (cin : ℕ) : Option (Tensor4 α) :=
  if batchingValid nY nX pY pX v w then
    some (imageBatchingRaw input nY nX pY pX B v w interp cin)
  else none

end Tiler

section Fuser

variable {α : Type} [LinearOrderedField α]

/-- Contribution of tile `(x_index, y_index) = (xi, yi)` of the patch batch to
output position `(b, c, y, x)`, transcribing the four-way slice-accumulation
cases of the `image_fuse` loop body.  A position receives the patch value when
it lies in the written output slice, read at the matching source-slice offset;
otherwise the tile contributes `0`.  The written output slices end at the
image extent for the last tile of an axis (the open-ended `y_start:` /
`x_start:` slices) and at `start + patch - 2*boundary` otherwise. -/
def fuseContrib (patches : Tensor4 α) (nY nX pY pX B v w : ℕ)
    (xi yi b c y x : ℕ) : α :=
  let sX := strideOf pX v w
  let sY := strideOf pY v w
  let pnX := tileCount nX sX
  let pnY := tileCount nY sY
  let xs := xi * sX
  let ys := yi * sY
  let slot := (xi * pnY + yi) * B + b
  if xi = pnX - 1 ∧ yi ≠ pnY - 1 then
    if ys ≤ y ∧ y < ys + (pY - 2 * w) ∧ xs ≤ x ∧ x < nX then
      patches slot c (w + (y - ys)) (w + (x - xs)) else 0
  else if yi = pnY - 1 ∧ xi ≠ pnX - 1 then
    if ys ≤ y ∧ y < nY ∧ xs ≤ x ∧ x < xs + (pX - 2 * w) then
      patches slot c (w + (y - ys)) (w + (x - xs)) else 0
  else if xi = pnX - 1 ∧ yi = pnY - 1 then
    if ys ≤ y ∧ y < nY ∧ xs ≤ x ∧ x < nX then
      patches slot c (w + (y - ys)) (w + (x - xs)) else 0
  else
    if ys ≤ y ∧ y < ys + (pY - 2 * w) ∧ xs ≤ x ∧ x < xs + (pX - 2 * w) then
      patches slot c (w + (y - ys)) (w + (x - xs)) else 0

/-- Accumulated numerator of `image_fuse`: the `+=` double loop summed over
the tile grid. -/
def fuseNumer (patches : Tensor4 α) (nY nX pY pX B v w : ℕ) (b c y x : ℕ) : α :=
  ∑ xi ∈ Finset.range (tileCount nX (strideOf pX v w)),
    ∑ yi ∈ Finset.range (tileCount nY (strideOf pY v w)),
      fuseContrib patches nY nX pY pX B v w xi yi b c y x

/-- Per-pixel coverage count of `image_fuse` (`count_map`): the `one_map`
slices accumulated by the loop are exactly the `fuseContrib` indicators
applied to an all-ones patch batch (`one_map` has batch and channel extent 1,
read here at index 0). -/
def countMap (nY nX pY pX B v w : ℕ) (y x : ℕ) : α :=
  ∑ xi ∈ Finset.range (tileCount nX (strideOf pX v w)),
    ∑ yi ∈ Finset.range (tileCount nY (strideOf pY v w)),
      fuseContrib (fun _ _ _ _ => (1 : α)) nY nX pY pX B v w xi yi 0 0 y x

/-- Fuser `image_fuse`: `output / count_map` elementwise.  Field division is
total (`z / 0 = 0`), whereas torch silently produces `inf`/`nan` at pixels
with zero count — see the count-map coverage results below. -/
def imageFuse (patches : Tensor4 α) (nY nX pY pX B v w : ℕ) : Tensor4 α :=
  fun b c y x =>
    fuseNumer patches nY nX pY pX B v w b c y x /
      countMap (α := α) nY nX pY pX B v w y x

/-- Shape consistency of the fuse slice assignments along one axis: for every
non-last tile the written output slice `start : start + patch - 2*boundary`
must fit inside the image extent, otherwise torch clamps the destination
slice, the source slice length no longer matches, and `image_fuse` raises a
shape-mismatch `RuntimeError`.  (The last tile's slices match by the residual
arithmetic.)  `imageFuse` models the program only under this condition. -/
def fuseShapesOk (n p v w : ℕ) : Prop :=
  2 ≤ tileCount n (strideOf p v w) →
    (tileCount n (strideOf p v w) - 2) * strideOf p v w + (p - 2 * w) ≤ n

instance fuseShapesOk.dec (n p v w : ℕ) : Decidable (fuseShapesOk n p v w) := by
  unfold fuseShapesOk; exact inferInstance

end Fuser

section FuserLemmas

variable {α : Type} [LinearOrderedField α]

/-- End (exclusive) of the output span written by tile `k` along one axis:
the image extent for the axis's last tile, `start + patch - 2*boundary`
otherwise. -/
def tileEnd (n p v w k : ℕ) : ℕ :=
  if k = tileCount n (strideOf p v w) - 1 then n
  else k * strideOf p v w + (p - 2 * w)

/-- Unified form of the four slice cases of the fuse loop: tile `(xi, yi)`
contributes its patch value, read at offset `boundary + (pos - start)`, on the
product of the per-axis spans `[start, tileEnd)`. -/
theorem fuseContrib_eq (patches : Tensor4 α) (nY nX pY pX B v w xi yi b c y x : ℕ) :
    fuseContrib patches nY nX pY pX B v w xi yi b c y x =
      (if yi * strideOf pY v w ≤ y ∧ y < tileEnd nY pY v w yi ∧
          xi * strideOf pX v w ≤ x ∧ x < tileEnd nX pX v w xi then
        patches ((xi * tileCount nY (strideOf pY v w) + yi) * B + b) c
          (w + (y - yi * strideOf pY v w)) (w + (x - xi * strideOf pX v w))
      else 0) := by
  by_cases hx : xi = tileCount nX (strideOf pX v w) - 1 <;>
    by_cases hy : yi = tileCount nY (strideOf pY v w) - 1 <;>
      simp only [fuseContrib, tileEnd, hx, hy, if_pos, if_neg, ite_not,
        not_true_eq_false, not_false_eq_true, and_true, and_false, true_and,
        false_and, if_true, if_false, ite_true, ite_false, ne_eq]

/-- Flat-index decoding: the slot `(t * B + b)` written by the tiling loop
decodes back to tile `t` and original batch index `b`. -/
theorem slot_decode (B t b : ℕ) (hb : b < B) :
    (t * B + b) / B = t ∧ (t * B + b) % B = b := by
  constructor
  · rw [Nat.mul_comm t B, Nat.mul_add_div (by omega), Nat.div_eq_of_lt hb]
    rfl
  · rw [Nat.mul_comm t B, Nat.mul_add_mod, Nat.mod_eq_of_lt hb]

/-- Tile-grid flattening stays inside the allocated `patch_num_x * patch_num_y`
range. -/
theorem tile_index_lt (pnX pnY xi yi : ℕ) (hxi : xi < pnX) (hyi : yi < pnY) :
    xi * pnY + yi < pnX * pnY := by
  calc xi * pnY + yi < xi * pnY + pnY := by omega
  _ = (xi + 1) * pnY := by ring
  _ ≤ pnX * pnY := Nat.mul_le_mul_right _ (by omega)

/-- Value stored by the Tiler (without auxiliary conditioning) at the slot
encoding tile `(xi, yi)` and batch index `b`: the padded-image window of that
tile. -/
theorem imageBatchingRaw_encode (input : Tensor4 α) (nY nX pY pX B v w cin : ℕ)
    (xi yi b c py px : ℕ) (hb : b < B)
    (hxi : xi < tileCount nX (strideOf pX v w))
    (hyi : yi < tileCount nY (strideOf pY v w))
    (hpy : py < pY) (hpx : px < pX) :
    imageBatchingRaw input nY nX pY pX B v w none cin
        ((xi * tileCount nY (strideOf pY v w) + yi) * B + b) c py px
      = reflectPad input nY nX w b c
          (yi * strideOf pY v w + py) (xi * strideOf pX v w + px) := by
  obtain ⟨hdiv, hmod⟩ :=
    slot_decode B (xi * tileCount nY (strideOf pY v w) + yi) b hb
  obtain ⟨hdiv2, hmod2⟩ :=
    slot_decode (tileCount nY (strideOf pY v w)) xi yi hyi
  simp only [imageBatchingRaw, hdiv, hmod, hdiv2, hmod2]
  rw [if_pos ⟨tile_index_lt _ _ _ _ hxi hyi, hpy, hpx⟩]

/-- Axis coverage: when `boundary_pix ≤ overlap_pix`, every in-range axis
position lies in the output span of some tile (the position's stride cell for
interior tiles, the last tile otherwise). -/
theorem axis_cover (n p v w u : ℕ) (hvw : v + w < p) (hwv : w ≤ v)
    (hn : 0 < n) (hu : u < n) :
    ∃ k, k < tileCount n (strideOf p v w) ∧ k * strideOf p v w ≤ u ∧
      u < tileEnd n p v w k := by
  have hs : 0 < strideOf p v w := by unfold strideOf; omega
  obtain ⟨hpn1, hlt, hle⟩ := tileCount_spec (strideOf p v w) n hs hn
  by_cases hk : u / strideOf p v w < tileCount n (strideOf p v w) - 1
  · refine ⟨u / strideOf p v w, by omega, Nat.div_mul_le_self u _, ?_⟩
    rw [tileEnd, if_neg (by omega)]
    have hdm : strideOf p v w * (u / strideOf p v w) + u % strideOf p v w = u :=
      Nat.div_add_mod u _
    have hms : u % strideOf p v w < strideOf p v w := Nat.mod_lt _ hs
    have h2w : strideOf p v w ≤ p - 2 * w := by unfold strideOf at *; omega
    have hcm : u / strideOf p v w * strideOf p v w
        = strideOf p v w * (u / strideOf p v w) := Nat.mul_comm _ _
    revert hdm hcm
    generalize u / strideOf p v w * strideOf p v w = A
    generalize strideOf p v w * (u / strideOf p v w) = A'
    intro hdm hcm
    omega
  · refine ⟨tileCount n (strideOf p v w) - 1, by omega, ?_, ?_⟩
    · calc (tileCount n (strideOf p v w) - 1) * strideOf p v w
          ≤ u / strideOf p v w * strideOf p v w :=
            Nat.mul_le_mul_right _ (by omega)
      _ ≤ u := Nat.div_mul_le_self u _
    · rw [tileEnd, if_pos rfl]; exact hu

/-- Per-pixel coverage: with `boundary_pix ≤ overlap_pix` every pixel of the
output region is written by at least one tile, so the accumulated `count_map`
is at least `1` there. -/
theorem countMap_ge_one {α : Type} [LinearOrderedField α] (nY nX pY pX B v w y x : ℕ)
    (hvwX : v + w < pX) (hvwY : v + w < pY) (hwv : w ≤ v)
    (hnX : 0 < nX) (hnY : 0 < nY) (hy : y < nY) (hx : x < nX) :
    (1 : α) ≤ countMap nY nX pY pX B v w y x := by
  obtain ⟨kx, hkx, hkxs, hkxe⟩ := axis_cover nX pX v w x hvwX hwv hnX hx
  obtain ⟨ky, hky, hkys, hkye⟩ := axis_cover nY pY v w y hvwY hwv hnY hy
  unfold countMap
  have hterm : ∀ xi yi : ℕ,
      (0 : α) ≤ fuseContrib (fun _ _ _ _ => (1 : α)) nY nX pY pX B v w xi yi 0 0 y x := by
    intro xi yi
    rw [fuseContrib_eq]
    split_ifs
    · exact zero_le_one
    · exact le_refl 0
  have h1 : (1 : α) ≤ ∑ yi ∈ Finset.range (tileCount nY (strideOf pY v w)),
      fuseContrib (fun _ _ _ _ => (1 : α)) nY nX pY pX B v w kx yi 0 0 y x := by
    have hval : fuseContrib (fun _ _ _ _ => (1 : α)) nY nX pY pX B v w kx ky 0 0 y x
        = 1 := by
      rw [fuseContrib_eq, if_pos ⟨hkys, hkye, hkxs, hkxe⟩]
    calc (1 : α) = fuseContrib (fun _ _ _ _ => (1 : α)) nY nX pY pX B v w kx ky 0 0 y x :=
          hval.symm
    _ ≤ _ := Finset.single_le_sum (fun yi _ => hterm kx yi) (Finset.mem_range.mpr hky)
  calc (1 : α) ≤ _ := h1
  _ ≤ _ := Finset.single_le_sum
      (fun xi _ => Finset.sum_nonneg (fun yi _ => hterm xi yi))
      (Finset.mem_range.mpr hkx)

/-- Patch coordinates produced by the fuse windows stay inside the patch
extent. -/
theorem patch_coord_lt (n p v w k u : ℕ) (hvw : v + w < p) (hn : 0 < n)
    (hs : k * strideOf p v w ≤ u) (he : u < tileEnd n p v w k) :
    w + (u - k * strideOf p v w) < p := by
  obtain ⟨_, _, _, _, hres, hrpos, hrle⟩ := geom_facts n p v w hvw hn
  have hsdef : strideOf p v w = p - v - w := rfl
  unfold tileEnd at he
  by_cases hlast : k = tileCount n (strideOf p v w) - 1
  · rw [if_pos hlast] at he
    have hcm : k * strideOf p v w
        = strideOf p v w * (tileCount n (strideOf p v w) - 1) := by
      rw [hlast, Nat.mul_comm]
    revert hs hcm hres
    generalize k * strideOf p v w = A
    generalize strideOf p v w * (tileCount n (strideOf p v w) - 1) = A'
    intro hs hcm hres
    omega
  · rw [if_neg hlast] at he
    revert hs he
    generalize k * strideOf p v w = A
    intro hs he
    omega

/-- Term-wise round trip: at an in-range output pixel, the contribution of
each tile of the tiled image is the coverage indicator times the original
pixel value — the crop offsets of the Fuser exactly invert the window offsets
of the Tiler, landing in the interior of the reflection padding. -/
theorem fuse_batch_contrib {α : Type} [LinearOrderedField α] (input : Tensor4 α)
    (nY nX pY pX B v w cin xi yi b c y x : ℕ)
    (hvwX : v + w < pX) (hvwY : v + w < pY)
    (hnX : 0 < nX) (hnY : 0 < nY) (hb : b < B)
    (hxi : xi < tileCount nX (strideOf pX v w))
    (hyi : yi < tileCount nY (strideOf pY v w))
    (hy : y < nY) (hx : x < nX) :
    fuseContrib (imageBatchingRaw input nY nX pY pX B v w none cin)
        nY nX pY pX B v w xi yi b c y x
      = fuseContrib (fun _ _ _ _ => (1 : α)) nY nX pY pX B v w xi yi 0 0 y x
          * input b c y x := by
  rw [fuseContrib_eq, fuseContrib_eq]
  split_ifs with h
  · obtain ⟨hys, hye, hxs, hxe⟩ := h
    have hqy : w + (y - yi * strideOf pY v w) < pY :=
      patch_coord_lt nY pY v w yi y hvwY hnY hys hye
    have hqx : w + (x - xi * strideOf pX v w) < pX :=
      patch_coord_lt nX pX v w xi x hvwX hnX hxs hxe
    rw [imageBatchingRaw_encode input nY nX pY pX B v w cin xi yi b c _ _
        hb hxi hyi hqy hqx]
    unfold reflectPad
    have e1 : yi * strideOf pY v w + (w + (y - yi * strideOf pY v w)) = w + y := by
      omega
    have e2 : xi * strideOf pX v w + (w + (x - xi * strideOf pX v w)) = w + x := by
      omega
    rw [e1, e2, reflectIdx_interior nY w (w + y) (by omega) (by omega),
      reflectIdx_interior nX w (w + x) (by omega) (by omega)]
    have e3 : w + y - w = y := by omega
    have e4 : w + x - w = x := by omega
    rw [e3, e4, one_mul]
  · rw [zero_mul]

/-- Round trip through Tiler then Fuser: with `boundary_pix ≤ overlap_pix` the
fused tiling of an image reproduces the image exactly at every in-range
position. -/
theorem roundTrip_eq {α : Type} [LinearOrderedField α] (input : Tensor4 α)
    (nY nX pY pX B v w cin b c y x : ℕ)
    (hvwX : v + w < pX) (hvwY : v + w < pY) (hwv : w ≤ v)
    (hnX : 0 < nX) (hnY : 0 < nY) (hb : b < B) (hy : y < nY) (hx : x < nX) :
    imageFuse (imageBatchingRaw input nY nX pY pX B v w none cin)
        nY nX pY pX B v w b c y x = input b c y x := by
  have hcount := countMap_ge_one (α := α) nY nX pY pX B v w y x
    hvwX hvwY hwv hnX hnY hy hx
  have hne : countMap (α := α) nY nX pY pX B v w y x ≠ 0 :=
    ne_of_gt (lt_of_lt_of_le zero_lt_one hcount)
  unfold imageFuse
  have hnum : fuseNumer (imageBatchingRaw input nY nX pY pX B v w none cin)
        nY nX pY pX B v w b c y x
      = countMap nY nX pY pX B v w y x * input b c y x := by
    unfold fuseNumer countMap
    rw [Finset.sum_mul]
    refine Finset.sum_congr rfl ?_
    intro xi hxi'
    rw [Finset.sum_mul]
    refine Finset.sum_congr rfl ?_
    intro yi hyi'
    exact fuse_batch_contrib input nY nX pY pX B v w cin xi yi b c y x
      hvwX hvwY hnX hnY hb
      (Finset.mem_range.mp hxi') (Finset.mem_range.mp hyi') hy hx
  rw [hnum]
  exact mul_div_cancel_left₀ _ hne

end FuserLemmas

section TilingClaims

/-- C2: for img_shape 450, patch_shape 128, overlap 4, boundary 2 (stride 122,
4 tiles per axis), the reflection padding is valid and the fuse slice shapes
are consistent, and fusing the tiling of any input reproduces that input
exactly at every in-range position of the 450×450 region — including the
pixels contributed only by the trailing partial tile. -/
theorem claim2_roundtrip_450 {α : Type} [LinearOrderedField α] (input : Tensor4 α)
    (B b c y x : ℕ) (hb : b < B) (hy : y < 450) (hx : x < 450) :
    tileCount 450 (strideOf 128 4 2) = 4 ∧
    batchingValid 450 450 128 128 4 2 ∧ fuseShapesOk 450 128 4 2 ∧
    imageBatching input 450 450 128 128 B 4 2 none 0
      = some (imageBatchingRaw input 450 450 128 128 B 4 2 none 0) ∧
    imageFuse (imageBatchingRaw input 450 450 128 128 B 4 2 none 0)
      450 450 128 128 B 4 2 b c y x = input b c y x := by
  have hvalid : batchingValid 450 450 128 128 4 2 := by decide
  refine ⟨by decide, hvalid, by decide, ?_, ?_⟩
  · unfold imageBatching
    rw [if_pos hvalid]
  · exact roundTrip_eq input 450 450 128 128 B 4 2 0 b c y x (by norm_num)
      (by norm_num) (by norm_num) (by norm_num) (by norm_num) hb hy hx

/-- Witness for C2 at a concrete input, batch index and pixel. -/
theorem claim2_witness :
    (0 : ℕ) < 1 ∧ (7 : ℕ) < 450 ∧ (449 : ℕ) < 450 ∧
    imageFuse
        (imageBatchingRaw (fun _ _ y x => (y * 1000 + x : ℚ)) 450 450 128 128 1 4 2 none 0)
        450 450 128 128 1 4 2 0 0 7 449
      = (fun _ _ y x => (y * 1000 + x : ℚ)) 0 0 7 449 :=
  ⟨by norm_num, by norm_num, by norm_num,
    (claim2_roundtrip_450 (fun _ _ y x => (y * 1000 + x : ℚ)) 1 0 0 7 449
      (by norm_num) (by norm_num) (by norm_num)).2.2.2.2⟩

/-- C3 counterexample: img_shape 10, patch_shape 6, overlap 0, boundary 1 is a
spec-valid geometry (overlap and boundary nonnegative and below the patch
extent, stride 5 positive, fuse slice shapes consistent, padding valid), yet
pixel (4,4) of the output region is covered by no cropped tile: the
accumulated `count_map` is `0` there, refuting the claim. -/
theorem claim3_counterexample :
    0 + 1 < 6 ∧ 0 < strideOf 6 0 1 ∧
    fuseShapesOk 10 6 0 1 ∧ batchingValid 10 10 6 6 0 1 ∧ (4 : ℕ) < 10 ∧
    countMap (α := ℚ) 10 10 6 6 1 0 1 4 4 = 0 := by
  refine ⟨by norm_num, by decide, by decide, by decide, by norm_num, ?_⟩
  have h2 : tileCount 10 (strideOf 6 0 1) = 2 := by decide
  unfold countMap
  rw [h2]
  rw [Finset.sum_range_succ, Finset.sum_range_succ, Finset.sum_range_zero,
    Finset.sum_range_succ, Finset.sum_range_succ, Finset.sum_range_zero]
  norm_num [fuseContrib, strideOf, tileCount]

/-- C3 amended: coverage holds on every spec-valid geometry with the
additional hypothesis `boundary_pix ≤ overlap_pix` (and consistent fuse slice
shapes, without which `image_fuse` raises a shape mismatch before the count
map is complete): every pixel of the output region has `count_map ≥ 1` before
the division. -/
theorem claim3_amended_coverage (nY nX pY pX B v w y x : ℕ)
    (hvwX : v + w < pX) (hvwY : v + w < pY) (hwv : w ≤ v)
    (_hshX : fuseShapesOk nX pX v w) (_hshY : fuseShapesOk nY pY v w)
    (hnX : 0 < nX) (hnY : 0 < nY) (hy : y < nY) (hx : x < nX) :
    (1 : ℚ) ≤ countMap nY nX pY pX B v w y x :=
  countMap_ge_one nY nX pY pX B v w y x hvwX hvwY hwv hnX hnY hy hx

/-- Witness for the amended C3 at a concrete geometry and pixel. -/
theorem claim3_witness :
    1 + 1 < 6 ∧ fuseShapesOk 10 6 1 1 ∧ (4 : ℕ) < 10 ∧
    (1 : ℚ) ≤ countMap 10 10 6 6 1 1 1 4 4 :=
  ⟨by norm_num, by decide, by norm_num,
    claim3_amended_coverage 10 10 6 6 1 1 1 4 4 (by norm_num) (by norm_num)
      (by norm_num) (by decide) (by decide) (by norm_num) (by norm_num)
      (by norm_num) (by norm_num)⟩

/-- C4 counterexample: img_shape 10, patch_shape 128, overlap 4, boundary 2
satisfies every hypothesis of the claim (patch ≠ img, positive overlap and
boundary, positive stride), yet `image_batching` raises — the reflection pad
`pad_right = 118` reaches the image extent 10 — so the composition cannot
reproduce any input. -/
theorem claim4_counterexample :
    (128 : ℕ) ≠ 10 ∧ 0 < 4 ∧ 0 < 2 ∧ 0 < strideOf 128 4 2 ∧
    imageBatching (fun _ _ _ _ => (0 : ℚ)) 10 10 128 128 1 4 2 none 0 = none := by
  refine ⟨by norm_num, by norm_num, by norm_num, by decide, ?_⟩
  unfold imageBatching
  rw [if_neg (by decide)]

/-- C4 amended: the round trip is exact on the geometries where the pipeline
actually runs: additionally to the claim's hypotheses, the reflection pads
must be below the image extents (`batchingValid`, otherwise the Tiler
raises), the fuse slice shapes must be consistent (otherwise the Fuser
raises), and `boundary_pix ≤ overlap_pix` (otherwise uncovered pixels are
produced by `0/0`). -/
theorem claim4_amended_roundtrip {α : Type} [LinearOrderedField α]
    (input : Tensor4 α) (nY nX pY pX B v w b c y x : ℕ)
    (_hne : pX ≠ nX ∨ pY ≠ nY) (_hv : 0 < v) (_hw : 0 < w)
    (hvwX : v + w < pX) (hvwY : v + w < pY) (hwv : w ≤ v)
    (hvalid : batchingValid nY nX pY pX v w)
    (_hshX : fuseShapesOk nX pX v w) (_hshY : fuseShapesOk nY pY v w)
    (hb : b < B) (hy : y < nY) (hx : x < nX) :
    imageBatching input nY nX pY pX B v w none 0
      = some (imageBatchingRaw input nY nX pY pX B v w none 0) ∧
    imageFuse (imageBatchingRaw input nY nX pY pX B v w none 0)
      nY nX pY pX B v w b c y x = input b c y x := by
  have hnX : 0 < nX := lt_of_le_of_lt (Nat.zero_le w) hvalid.1
  have hnY : 0 < nY := lt_of_le_of_lt (Nat.zero_le w) hvalid.2.2.1
  constructor
  · unfold imageBatching
    rw [if_pos hvalid]
  · exact roundTrip_eq input nY nX pY pX B v w 0 b c y x hvwX hvwY hwv
      hnX hnY hb hy hx

/-- Witness for the amended C4 at the 450/128 geometry. -/
theorem claim4_witness :
    batchingValid 450 450 128 128 4 2 ∧ (0 : ℕ) < 1 ∧ (3 : ℕ) < 450 ∧
    imageFuse
        (imageBatchingRaw (fun b _ _ x => (b + x : ℚ)) 450 450 128 128 1 4 2 none 0)
        450 450 128 128 1 4 2 0 0 3 5
      = (fun b _ _ x => (b + x : ℚ)) 0 0 3 5 :=
  ⟨by decide, by norm_num, by norm_num,
    (claim4_amended_roundtrip (fun b _ _ x => (b + x : ℚ)) 450 450 128 128 1 4 2
      0 0 3 5 (by norm_num) (by norm_num) (by norm_num) (by norm_num)
      (by norm_num) (by norm_num) (by decide) (by decide) (by decide)
      (by norm_num) (by norm_num) (by norm_num)).2⟩

/-- C6: the Tiler writes the patch of tile `(xi, yi)` into the output-batch
slot range `[(xi*patch_num_y + yi)*B, (xi*patch_num_y + yi + 1)*B)` — every
slot of that range holds that tile's padded-image window at the in-range batch
offset — and the Fuser's contribution of the same tile reads the patch batch
only inside exactly that slot range, so the flattening of the 2D tile grid
into the leading axis is identical in both functions. -/
theorem claim6_slot_layout {α : Type} [LinearOrderedField α]
    (input patches : Tensor4 α) (nY nX pY pX B v w cin xi yi b c py px y x : ℕ)
    (hb : b < B)
    (hxi : xi < tileCount nX (strideOf pX v w))
    (hyi : yi < tileCount nY (strideOf pY v w))
    (hpy : py < pY) (hpx : px < pX) :
    (∀ s', (xi * tileCount nY (strideOf pY v w) + yi) * B ≤ s' →
        s' < (xi * tileCount nY (strideOf pY v w) + yi + 1) * B →
        imageBatchingRaw input nY nX pY pX B v w none cin s' c py px
          = reflectPad input nY nX w
              (s' - (xi * tileCount nY (strideOf pY v w) + yi) * B) c
              (yi * strideOf pY v w + py) (xi * strideOf pX v w + px)) ∧
    (∀ patches' : Tensor4 α,
        (∀ s' c' py' px',
            (xi * tileCount nY (strideOf pY v w) + yi) * B ≤ s' →
            s' < (xi * tileCount nY (strideOf pY v w) + yi + 1) * B →
            patches s' c' py' px' = patches' s' c' py' px') →
        fuseContrib patches nY nX pY pX B v w xi yi b c y x
          = fuseContrib patches' nY nX pY pX B v w xi yi b c y x) := by
  have hTB : (xi * tileCount nY (strideOf pY v w) + yi + 1) * B
      = (xi * tileCount nY (strideOf pY v w) + yi) * B + B := by ring
  constructor
  · intro s' hle hlt
    have hb' : s' - (xi * tileCount nY (strideOf pY v w) + yi) * B < B := by omega
    have hs'' : (xi * tileCount nY (strideOf pY v w) + yi) * B
        + (s' - (xi * tileCount nY (strideOf pY v w) + yi) * B) = s' :=
      Nat.add_sub_cancel' hle
    conv_lhs => rw [← hs'']
    exact imageBatchingRaw_encode input nY nX pY pX B v w cin xi yi _ c py px
      hb' hxi hyi hpy hpx
  · intro patches' hagree
    rw [fuseContrib_eq, fuseContrib_eq]
    split_ifs
    · rw [hagree _ _ _ _ (Nat.le_add_right _ _) (by omega)]
    · rfl

/-- Witness for C6 at the 450/128 geometry, tile (1, 2), batch offset 0. -/
theorem claim6_witness :
    (0 : ℕ) < 1 ∧ (1 : ℕ) < tileCount 450 (strideOf 128 4 2) ∧
    (∀ s', (1 * tileCount 450 (strideOf 128 4 2) + 2) * 1 ≤ s' →
        s' < (1 * tileCount 450 (strideOf 128 4 2) + 2 + 1) * 1 →
        imageBatchingRaw (fun _ _ y x => (y + x : ℚ)) 450 450 128 128 1 4 2 none 0
            s' 0 5 6
          = reflectPad (fun _ _ y x => (y + x : ℚ)) 450 450 2
              (s' - (1 * tileCount 450 (strideOf 128 4 2) + 2) * 1) 0
              (2 * strideOf 128 4 2 + 5) (1 * strideOf 128 4 2 + 6)) :=
  ⟨by norm_num, by decide,
    (claim6_slot_layout (fun _ _ y x => (y + x : ℚ)) (fun _ _ _ _ => (0 : ℚ))
      450 450 128 128 1 4 2 0 1 2 0 0 5 6 9 9 (by norm_num) (by decide)
      (by decide) (by norm_num) (by norm_num)).1⟩

/-- C7: the code divides unconditionally.  At the spec-valid geometry
img 10, patch 6, overlap 0, boundary 1 (whose fuse slice shapes are
consistent, so the loop completes), the count at pixel (4,4) is `0`, and
`image_fuse` still returns an elementwise quotient — modelled over `ℚ` the
value `0/0 = 0` — instead of surfacing an error; torch emits `nan` there
silently.  There is no zero-count check anywhere in `image_fuse`. -/
theorem claim7_silent_division :
    fuseShapesOk 10 6 0 1 ∧
    countMap (α := ℚ) 10 10 6 6 1 0 1 4 4 = 0 ∧
    imageFuse (fun _ _ _ _ => (1 : ℚ)) 10 10 6 6 1 0 1 0 0 4 4
      = fuseNumer (fun _ _ _ _ => (1 : ℚ)) 10 10 6 6 1 0 1 0 0 4 4
          / countMap (α := ℚ) 10 10 6 6 1 0 1 4 4 := by
  refine ⟨by decide, ?_, rfl⟩
  have h2 : tileCount 10 (strideOf 6 0 1) = 2 := by decide
  unfold countMap
  rw [h2]
  rw [Finset.sum_range_succ, Finset.sum_range_succ, Finset.sum_range_zero,
    Finset.sum_range_succ, Finset.sum_range_succ, Finset.sum_range_zero]
  norm_num [fuseContrib, strideOf, tileCount]

/-- C9 counterexample: with the sampler's default overlap 4 and boundary 2 and
patch_shape equal to img_shape 8, the geometry is spec-valid and the padding
is valid, but the Tiler is far from the identity: the stride is 2, the tile
grid is 4×4 (16 slots per original batch element, not 1), and the value
stored at slot 0, pixel (0,0) is the reflected pixel (2,2) of the input, not
pixel (0,0). -/
theorem claim9_counterexample :
    batchingValid 8 8 8 8 4 2 ∧
    tileCount 8 (strideOf 8 4 2) * tileCount 8 (strideOf 8 4 2) = 16 ∧
    imageBatchingRaw (fun _ _ y x => if y = 0 ∧ x = 0 then (1 : ℚ) else 0)
        8 8 8 8 1 4 2 none 0 0 0 0 0 = 0 ∧
    (fun _ _ y x => if y = 0 ∧ x = 0 then (1 : ℚ) else 0 : Tensor4 ℚ) 0 0 0 0
      = 1 := by
  refine ⟨by decide, by decide, ?_, by norm_num⟩
  have h4 : tileCount 8 (strideOf 8 4 2) = 4 := by decide
  unfold imageBatchingRaw
  norm_num [h4, reflectPad, reflectIdx]

/-- C9 amended: the Tiler and Fuser are the identity transform when
patch_shape equals img_shape **and** overlap_pix = boundary_pix = 0 (then the
tile grid is 1×1 and no padding or cropping happens); with the sampler's
default overlap/boundary the claim fails, see the counterexample. -/
theorem claim9_noop_tiling {α : Type} [LinearOrderedField α]
    (input patches : Tensor4 α) (n B s c py px b c' y x : ℕ)
    (hn : 0 < n) (hs : s < B) (hpy : py < n) (hpx : px < n)
    (_hb : b < B) (hy : y < n) (hx : x < n) :
    imageBatchingRaw input n n n n B 0 0 none 0 s c py px = input s c py px ∧
    imageFuse patches n n n n B 0 0 b c' y x = patches b c' y x := by
  have hstride : strideOf n 0 0 = n := by unfold strideOf; omega
  have htc : tileCount n (strideOf n 0 0) = 1 := by
    rw [hstride]; unfold tileCount
    exact Nat.div_eq_of_lt_le (by omega) (by omega)
  constructor
  · have ht : s / B = 0 := Nat.div_eq_of_lt hs
    have hm : s % B = s := Nat.mod_eq_of_lt hs
    simp only [imageBatchingRaw, ht, htc, hm, Nat.zero_div, Nat.zero_mod,
      Nat.zero_mul, Nat.zero_add, Nat.one_mul, Nat.mul_one]
    rw [if_pos ⟨Nat.zero_lt_one, hpy, hpx⟩]
    unfold reflectPad
    rw [reflectIdx_interior n 0 py (by omega) (by omega),
      reflectIdx_interior n 0 px (by omega) (by omega)]
    simp
  · unfold imageFuse fuseNumer countMap
    simp only [htc, Finset.sum_range_one]
    rw [fuseContrib_eq, fuseContrib_eq]
    have hend : tileEnd n n 0 0 0 = n := by
      unfold tileEnd
      rw [htc, if_pos rfl]
    rw [hend]
    rw [if_pos ⟨by omega, hy, by omega, hx⟩, if_pos ⟨by omega, hy, by omega, hx⟩]
    simp only [htc, hstride, Nat.zero_mul, Nat.zero_add, Nat.add_zero,
      Nat.mul_zero, Nat.sub_zero]
    exact div_one _

/-- Witness for the amended C9 at a concrete geometry. -/
theorem claim9_witness :
    (0 : ℕ) < 3 ∧ (1 : ℕ) < 2 ∧
    imageBatchingRaw (fun b _ y x => (b + y + x : ℚ)) 3 3 3 3 2 0 0 none 0 1 0 2 1
      = (fun b _ y x => (b + y + x : ℚ)) 1 0 2 1 ∧
    imageFuse (fun b _ y x => (b * y * x : ℚ)) 3 3 3 3 2 0 0 1 0 2 2
      = (fun b _ y x => (b * y * x : ℚ)) 1 0 2 2 := by
  have h := claim9_noop_tiling (α := ℚ) (fun b _ y x => (b + y + x : ℚ))
    (fun b _ y x => (b * y * x : ℚ)) 3 2 1 0 2 1 1 0 2 2 (by norm_num)
    (by norm_num) (by norm_num) (by norm_num) (by norm_num) (by norm_num)
    (by norm_num)
  exact ⟨by norm_num, by norm_num, h.1, h.2⟩

/-- C10: the Tiler is not total over spec-valid geometries: whenever the
computed trailing pad reaches the image extent along either axis (or the
boundary pad does), `image_batching` raises the reflection-padding error
instead of returning a patch batch; and in the single-tile regime
(img_extent ≤ stride) the trailing pad reaches the image extent exactly when
`patch_extent ≥ 2 * img_extent`. -/
theorem claim10_batching_partial {α : Type} [LinearOrderedField α]
    (input : Tensor4 α) (nY nX pY pX B v w cin : ℕ) (interp : Option (Tensor4 α))
    (hvwX : v + w < pX) (hnX : 0 < nX) :
    (nX ≤ padRight nX pX v w ∨ nY ≤ padRight nY pY v w ∨ nX ≤ w ∨ nY ≤ w →
      imageBatching input nY nX pY pX B v w interp cin = none) ∧
    (nX ≤ strideOf pX v w → (2 * nX ≤ pX ↔ nX ≤ padRight nX pX v w)) := by
  constructor
  · intro hbad
    have hnv : ¬ batchingValid nY nX pY pX v w := by
      unfold batchingValid
      omega
    unfold imageBatching
    rw [if_neg hnv]
  · intro hone
    have htc : tileCount nX (strideOf pX v w) = 1 := by
      unfold tileCount
      have hs : 0 < strideOf pX v w := by unfold strideOf at *; omega
      exact Nat.div_eq_of_lt_le (by omega) (by omega)
    unfold padRight paddedShape
    rw [htc]
    simp only [Nat.sub_self, Nat.mul_zero, Nat.zero_add]
    unfold strideOf at *
    omega

/-- Witness for C10: img 10, patch 128, overlap 4, boundary 2 — the claim's
own example — where `pad_right = 118 ≥ 10` and the Tiler returns the error. -/
theorem claim10_witness :
    (4 + 2 : ℕ) < 128 ∧ (10 : ℕ) ≤ padRight 10 128 4 2 ∧ (2 * 10 : ℕ) ≤ 128 ∧
    imageBatching (fun _ _ _ _ => (0 : ℚ)) 10 10 128 128 3 4 2 none 0 = none := by
  have h := claim10_batching_partial (fun _ _ _ _ => (0 : ℚ)) 10 10 128 128 3 4 2 0
    none (by norm_num) (by norm_num)
  exact ⟨by norm_num, by decide, by norm_num, h.1 (Or.inl (by decide))⟩

end TilingClaims

noncomputable section Sampler

open scoped Classical

/-- Karras noise level of step `i` before rounding:
`(sigma_max**(1/rho) + i/(num_steps-1) * (sigma_min**(1/rho) - sigma_max**(1/rho)))**rho`
(real powers model the float computation of the source). -/
def karrasSigma (σmin σmax ρ : ℝ) (N : ℕ) (i : ℕ) : ℝ :=
  (σmax ^ (1 / ρ) + (i : ℝ) / ((N : ℝ) - 1) * (σmin ^ (1 / ρ) - σmax ^ (1 / ρ))) ^ ρ

/-- Noise-level schedule `t_steps`: the `num_steps` Karras sigmas passed
through the network's `round_sigma`, followed by the appended zero
(`t_N = 0`). -/
def tSteps (roundSigma : ℝ → ℝ) (σmin σmax ρ : ℝ) (N i : ℕ) : ℝ :=
  if i < N then roundSigma (karrasSigma σmin σmax ρ N i) else 0

/-- One iteration of the main sampling loop of `edm_sampler` (churn, Euler
predictor, Heun corrector except on the last step).  The denoiser `net` is the
external collaborator, receiving the (possibly tiled) noisy batch, the
conditioning batch, the scalar noise level of the `torch.ones(...)*t` tensor
and the position-grid argument; `class_labels` and `lead_time_label` are
opaque constants folded into `net`.  The result is `none` when the iteration
raises: `global_index.to(latents.device)` is executed unconditionally and is
an `AttributeError` when `global_index` is `None`. -/
def edmStep (net : Tensor4 ℝ → Tensor4 ℝ → ℝ → Option (Tensor4 ℝ) → Tensor4 ℝ)
    (roundSigma : ℝ → ℝ) (randn : ℕ → Tensor4 ℝ)
    (x_lr : Tensor4 ℝ) (globalIndex : Option (Tensor4 ℝ))
    (tiling : Bool) (nY nX pS B v w : ℕ)
    (N : ℕ) (Schurn Smin Smax Snoise : ℝ) (sched : ℕ → ℝ)
    (i : ℕ) (x_cur : Tensor4 ℝ) : Option (Tensor4 ℝ) :=
  let t_cur := sched i
  let t_next := sched (i + 1)
  let gamma := if Smin ≤ t_cur ∧ t_cur ≤ Smax then Schurn / (N : ℝ) else 0
  let t_hat := roundSigma (t_cur + gamma * t_cur)
  let x_hat : Tensor4 ℝ := fun b c y x =>
    x_cur b c y x + Real.sqrt (t_hat ^ 2 - t_cur ^ 2) * Snoise * randn i b c y x
  let x_hat_batch :=
    if tiling then imageBatchingRaw x_hat nY nX pS pS B v w none 0 else x_hat
  match globalIndex with
  | none => none
  | some gi =>
    let denoised0 := net x_hat_batch x_lr t_hat (some gi)
    let denoised : Tensor4 ℝ :=
      if tiling then imageFuse denoised0 nY nX pS pS B v w else denoised0
    let d_cur : Tensor4 ℝ := fun b c y x =>
      (x_hat b c y x - denoised b c y x) / t_hat
    let x_next : Tensor4 ℝ := fun b c y x =>
      x_hat b c y x + (t_next - t_hat) * d_cur b c y x
    if i < N - 1 then
      let x_next_batch :=
        if tiling then imageBatchingRaw x_next nY nX pS pS B v w none 0 else x_next
      let denoised1 := net x_next_batch x_lr t_next (some gi)
      let denoised' : Tensor4 ℝ :=
        if tiling then imageFuse denoised1 nY nX pS pS B v w else denoised1
      let d_prime : Tensor4 ℝ := fun b c y x =>
        (x_next b c y x - denoised' b c y x) / t_next
      some (fun b c y x =>
        x_hat b c y x
          + (t_next - t_hat) * (0.5 * d_cur b c y x + 0.5 * d_prime b c y x))
    else
      some x_next

/-- The loop `for i, (t_cur, t_next) in enumerate(zip(t_steps[:-1], t_steps[1:]))`
as a recursion over the remaining iteration count; a raising iteration aborts
the whole call. -/
def edmLoop (step : ℕ → Tensor4 ℝ → Option (Tensor4 ℝ)) :
    ℕ → ℕ → Tensor4 ℝ → Option (Tensor4 ℝ)
  | 0, _, x => some x
  | fuel + 1, i, x =>
    match step i x with
    | none => none
    | some x' => edmLoop step fuel (i + 1) x'

/-- Sampler `edm_sampler` for a square integer `img_shape`
(`img_shape_x = img_shape_y = imgShape`): clamps `sigma_min` from below by
the network's, builds the schedule and the position grid, concatenates the
optional `mean_hr` conditioning (with `cHr` channels) onto the `cLr`-channel
`img_lr`, tiles the conditioning and the grid once when tiling is active
(`interp` stands for the external bilinear resize
`torch.nn.functional.interpolate(img_lr, (patch, patch))`, an opaque input
here), initialises the state to `latents * t_steps[0]`, and runs the loop.
`global_index` is `None` exactly when tiling is bypassed, and every loop
iteration calls `.to(...)` on it. -/
def edmSampler (net : Tensor4 ℝ → Tensor4 ℝ → ℝ → Option (Tensor4 ℝ) → Tensor4 ℝ)
    (roundSigma : ℝ → ℝ) (netSigmaMin : ℝ)
    (latents img_lr : Tensor4 ℝ) (randn : ℕ → Tensor4 ℝ)
    (imgShape patchShape v w : ℕ)
    (meanHr : Option (Tensor4 ℝ)) (cHr cLr : ℕ) (interp : Tensor4 ℝ) (B N : ℕ)
    (σmin σmax ρ Schurn Smin Smax Snoise : ℝ) : Option (Tensor4 ℝ) :=
  let σmin' := max σmin netSigmaMin
  let nX := imgShape
  let nY := imgShape
  let sched : ℕ → ℝ := tSteps roundSigma σmin' σmax ρ N
  let grid : Tensor4 ℝ := fun _ c y x => if c = 0 then (y : ℝ) else (x : ℝ)
  let x_lr0 := match meanHr with
    | none => img_lr
    | some m => chanConcat m img_lr cHr
  let cin := match meanHr with
    | none => cLr
    | some _ => cHr + cLr
  let tiling : Bool := decide (patchShape ≠ nX ∨ patchShape ≠ nY)
  let x_lr := if tiling then
      imageBatchingRaw x_lr0 nY nX patchShape patchShape B v w (some interp) cin
    else x_lr0
  let globalIndex : Option (Tensor4 ℝ) :=
    if tiling then
      some (imageBatchingRaw grid nY nX patchShape patchShape B v w none 0)
    else none
  let x0 : Tensor4 ℝ := fun b c y x => latents b c y x * sched 0
  edmLoop
    (edmStep net roundSigma randn x_lr globalIndex tiling nY nX patchShape B v w
      N Schurn Smin Smax Snoise sched)
    N 0 x0

end Sampler

section SamplerClaims

/-- Unfolding of one loop iteration. -/
theorem edmLoop_succ (step : ℕ → Tensor4 ℝ → Option (Tensor4 ℝ))
    (fuel i : ℕ) (x : Tensor4 ℝ) :
    edmLoop step (fuel + 1) i x =
      match step i x with
      | none => none
      | some x' => edmLoop step fuel (i + 1) x' := rfl

/-- C1: at the claim's configuration — img_shape 8, patch_shape 8 (tiling
bypassed), num_steps 3, sigma_min 0.002, sigma_max 80, rho 7, S_churn 0 —
`edm_sampler` does not return `latents * t_steps[0]`: because tiling is
bypassed, `global_index` stays `None`, and the unconditional
`global_index.to(latents.device)` of the first loop iteration raises an
`AttributeError` for every denoiser (identity included), every latent and
every conditioning input. -/
theorem claim1_no_tiling_crashes
    (net : Tensor4 ℝ → Tensor4 ℝ → ℝ → Option (Tensor4 ℝ) → Tensor4 ℝ)
    (roundSigma : ℝ → ℝ) (netSigmaMin : ℝ)
    (latents img_lr : Tensor4 ℝ) (randn : ℕ → Tensor4 ℝ)
    (meanHr : Option (Tensor4 ℝ)) (cHr cLr : ℕ) (interp : Tensor4 ℝ) (B : ℕ)
    (Smin Smax Snoise : ℝ) :
    edmSampler net roundSigma netSigmaMin latents img_lr randn 8 8 4 2 meanHr
      cHr cLr interp B 3 0.002 80 7 0 Smin Smax Snoise = none := by
  simp only [edmSampler]
  norm_num
  rw [show (3 : ℕ) = 2 + 1 from rfl, edmLoop_succ]
  simp only [edmStep]

/-- C5: treating `net.round_sigma` as the identity, for `0 < sigma_min <
sigma_max`, `rho > 0` and at least two steps, the schedule is strictly
decreasing across all of its `num_steps + 1` entries and its final entry is
exactly `0`. -/
theorem claim5_schedule (σmin σmax ρ : ℝ) (N i j : ℕ)
    (h0 : 0 < σmin) (h1 : σmin < σmax) (hρ : 0 < ρ) (hN : 2 ≤ N)
    (hij : i < j) (hjN : j ≤ N) :
    tSteps id σmin σmax ρ N j < tSteps id σmin σmax ρ N i ∧
    tSteps id σmin σmax ρ N N = 0 := by
  have hA0 : (0 : ℝ) < σmax ^ (1 / ρ) := Real.rpow_pos_of_pos (h0.trans h1) _
  have hB0 : (0 : ℝ) < σmin ^ (1 / ρ) := Real.rpow_pos_of_pos h0 _
  have hBA : σmin ^ (1 / ρ) < σmax ^ (1 / ρ) :=
    Real.rpow_lt_rpow h0.le h1 (by positivity)
  have hN1 : (1 : ℝ) ≤ (N : ℝ) - 1 := by
    have h2 : (2 : ℝ) ≤ (N : ℝ) := by exact_mod_cast hN
    linarith
  have hval : ∀ k, k < N → tSteps id σmin σmax ρ N k = karrasSigma σmin σmax ρ N k := by
    intro k hk
    simp only [tSteps, if_pos hk, id_eq]
  have hzero : tSteps id σmin σmax ρ N N = 0 := by
    simp [tSteps]
  have hbase_ge : ∀ k : ℕ, k < N →
      σmin ^ (1 / ρ) ≤
        σmax ^ (1 / ρ) + (k : ℝ) / ((N : ℝ) - 1) * (σmin ^ (1 / ρ) - σmax ^ (1 / ρ)) := by
    intro k hk
    have hc0 : (0 : ℝ) ≤ (k : ℝ) / ((N : ℝ) - 1) := by positivity
    have hc1 : (k : ℝ) / ((N : ℝ) - 1) ≤ 1 := by
      rw [div_le_one (by linarith)]
      have hk1 : (k : ℝ) + 1 ≤ (N : ℝ) := by exact_mod_cast hk
      linarith
    nlinarith [mul_nonneg (sub_nonneg.mpr hc1) (sub_nonneg.mpr hBA.le)]
  have hbase_lt : ∀ k l : ℕ, k < l → l < N →
      σmax ^ (1 / ρ) + (l : ℝ) / ((N : ℝ) - 1) * (σmin ^ (1 / ρ) - σmax ^ (1 / ρ))
        < σmax ^ (1 / ρ) + (k : ℝ) / ((N : ℝ) - 1) * (σmin ^ (1 / ρ) - σmax ^ (1 / ρ)) := by
    intro k l hkl _
    have hkl' : (k : ℝ) / ((N : ℝ) - 1) < (l : ℝ) / ((N : ℝ) - 1) := by
      rw [div_eq_mul_inv, div_eq_mul_inv]
      exact mul_lt_mul_of_pos_right (by exact_mod_cast hkl)
        (inv_pos.mpr (by linarith))
    nlinarith [mul_lt_mul_of_neg_right hkl'
      (show σmin ^ (1 / ρ) - σmax ^ (1 / ρ) < 0 by linarith)]
  refine ⟨?_, hzero⟩
  by_cases hj' : j = N
  · subst hj'
    rw [hzero, hval i (by omega)]
    exact Real.rpow_pos_of_pos (lt_of_lt_of_le hB0 (hbase_ge i (by omega))) ρ
  · have hj'' : j < N := by omega
    rw [hval j hj'', hval i (by omega)]
    exact Real.rpow_lt_rpow (le_trans hB0.le (hbase_ge j hj''))
      (hbase_lt i j hij hj'') hρ

/-- Witness for C5 at sigma_min 1, sigma_max 2, rho 1, two steps, comparing
the first entry with the appended zero. -/
theorem claim5_witness :
    (0 : ℝ) < 1 ∧ (1 : ℝ) < 2 ∧ (0 : ℝ) < 1 ∧ (2 : ℕ) ≤ 2 ∧
    tSteps id 1 2 1 2 2 < tSteps id 1 2 1 2 0 ∧ tSteps id 1 2 1 2 2 = 0 :=
  ⟨by norm_num, by norm_num, by norm_num, le_refl 2,
    (claim5_schedule 1 2 1 2 0 2 (by norm_num) (by norm_num) (by norm_num)
      (le_refl 2) (by norm_num) (le_refl 2)).1,
    (claim5_schedule 1 2 1 2 0 2 (by norm_num) (by norm_num) (by norm_num)
      (le_refl 2) (by norm_num) (le_refl 2)).2⟩

/-- Rank-4 tensor shape (leading/batch, channel, height, width). -/
structure Shape4 where
  n : ℕ
  c : ℕ
  h : ℕ
  w : ℕ

/-- Shape of the Tiler's output allocation
`torch.zeros(patch_num*batch_size, C (+ interp channels), patch_shape_y,
patch_shape_x)`. -/
def imageBatchingShape (inShape : Shape4) (nY nX pY pX B v w cExtra : ℕ) : Shape4 :=
  ⟨tileCount nX (strideOf pX v w) * tileCount nY (strideOf pY v w) * B,
    inShape.c + cExtra, pY, pX⟩

/-- Shape of `x_hat`: the elementwise churn update preserves the shape of the
latents-shaped state `x_cur`. -/
def xHatShape (latentsShape : Shape4) : Shape4 := latentsShape

/-- Shape of the noise-level tensor passed to the denoiser at both invocation
sites of the loop: `torch.ones([x_hat.shape[0], 16, 1, 1]) * t`. -/
def sigmaArgShape (xHat : Shape4) : Shape4 := ⟨xHat.n, 16, 1, 1⟩

/-- C8 counterexample: at the 450/128 tiling-active geometry with batch size
1, the noise-level tensor's leading dimension is `x_hat.shape[0] = 1`
(the full-image batch), while the noisy patch batch it accompanies has
leading dimension `patch_num_x * patch_num_y * batch_size = 16`: the claim's
equality fails. -/
theorem claim8_counterexample :
    ((128 : ℕ) ≠ 450 ∨ (128 : ℕ) ≠ 450) ∧
    (sigmaArgShape (xHatShape ⟨1, 3, 450, 450⟩)).n = 1 ∧
    (imageBatchingShape ⟨1, 3, 450, 450⟩ 450 450 128 128 1 4 2 0).n = 16 := by
  refine ⟨Or.inl (by norm_num), rfl, by decide⟩

/-- C8 amended: the noise-level tensor's leading dimension equals the
full-image batch dimension `latents.shape[0]`, and whenever tiling produces
at least two tiles (and the batch is nonempty, `batch_size = latents.shape[0]`)
it differs from the patch-batch leading dimension. -/
theorem claim8_amended_sigma_lead (s : Shape4) (nY nX pY pX v w B cExtra : ℕ)
    (hB : B = s.n) (h1 : 1 ≤ B)
    (h2 : 2 ≤ tileCount nX (strideOf pX v w) * tileCount nY (strideOf pY v w)) :
    (sigmaArgShape (xHatShape s)).n = s.n ∧
    (sigmaArgShape (xHatShape s)).n ≠ (imageBatchingShape s nY nX pY pX B v w cExtra).n := by
  refine ⟨rfl, ?_⟩
  simp only [sigmaArgShape, xHatShape, imageBatchingShape]
  have hmul : 2 * B ≤
      tileCount nX (strideOf pX v w) * tileCount nY (strideOf pY v w) * B :=
    Nat.mul_le_mul_right B h2
  rw [← hB]
  omega

/-- Witness for the amended C8 at the 450/128 geometry, batch size 1. -/
theorem claim8_witness :
    (1 : ℕ) = 1 ∧ (1 : ℕ) ≤ 1 ∧
    (2 : ℕ) ≤ tileCount 450 (strideOf 128 4 2) * tileCount 450 (strideOf 128 4 2) ∧
    (sigmaArgShape (xHatShape ⟨1, 3, 450, 450⟩)).n = 1 ∧
    (sigmaArgShape (xHatShape ⟨1, 3, 450, 450⟩)).n
      ≠ (imageBatchingShape ⟨1, 3, 450, 450⟩ 450 450 128 128 1 4 2 0).n := by
  have h := claim8_amended_sigma_lead ⟨1, 3, 450, 450⟩ 450 450 128 128 4 2 1 0
    rfl (le_refl 1) (by decide)
  exact ⟨rfl, le_refl 1, by decide, h.1, h.2⟩

end SamplerClaims

end Edmss
